import Mathlib

set_option maxHeartbeats 1000000

/-! Verification of the minimum-weight vertex-cover searcher
(`intelligence/NP-hard/minimum_vertex_cover.py`) and of the message protocol of its
timeout wrapper (`intelligence/NP-hard/scheduler.py`).

Conventions of the embedding:
* Python dicts and OrderedDicts keep insertion order, so an adjacency table
  (dict from node to neighbor list) is an association list `List (Nat × List Nat)`
  whose entry order is the dict's key order.
* Node weights live in an arbitrary linearly ordered additive commutative
  monoid `Q` (the rationals and the reals are instances): the code only ever
  adds and compares Python numbers.  `w i` stands for the composition
  `nodes_weight_func(nodes[i])` of the code.
* Python `set` iteration order is implementation defined; the model enumerates a
  set in first-insertion order.  No claim other than the visitation-order
  tie-break is sensitive to this choice, and the concrete input used for that
  claim was checked against CPython 3.11, whose actual iteration order coincides
  with the model's order there.
* `float('inf')`, the initial value of the best-found bound, is modelled as
  `none` in an `Option`; the code's comparisons against it are spelled out. -/

abbrev Graph : Type := List (Nat × List Nat)

variable {Q : Type} [LinearOrderedAddCommMonoid Q]

/-- Keys of an adjacency table in dict order (`list(graph)` in the code). -/
def gkeys (g : Graph) : List Nat := g.map Prod.fst

/-- Dictionary lookup `graph[n]`; the graphs built by the code have unique keys. -/
def alookup : Graph → Nat → Option (List Nat)
  | [], _ => none
  | (k, ns) :: t, n => if k = n then some ns else alookup t n

/-- Lookup with default, `adj_table.get(node, [])` in the code. -/
def neighborsOf (g : Graph) (n : Nat) : List Nat := (alookup g n).getD []

/-- All directed adjacency pairs `(key, neighbor)` stored in the table. -/
def gpairs : Graph → List (Nat × Nat)
  | [] => []
  | (k, ns) :: t => ns.map (fun m => (k, m)) ++ gpairs t

/-- Embedding of `delete_node(graph, node)`: build a new table that skips the
deleted key, filters the deleted node out of every neighbor list, and drops
entries whose filtered neighbor list became empty. -/
def delete_node (g : Graph) (node : Nat) : Graph :=
  g.filterMap (fun e =>
    if e.1 = node then none
    else
      let ns2 := e.2.filter (fun m => m ≠ node)
      if ns2 = [] then none else some (e.1, ns2))

/-- Insertion into the model of a Python set: append if not already present. -/
def pyInsert {α : Type} [DecidableEq α] (l : List α) (x : α) : List α :=
  if x ∈ l then l else l ++ [x]

/-- A Python set built from a traversal, enumerated in first-insertion order. -/
def pySetOf {α : Type} [DecidableEq α] (l : List α) : List α := l.foldl pyInsert []

/-- The symmetrised edge set: `edge_set = {(y,x) for x,y in edges}` followed by
`edge_set.update(edges)`, so the reversed pairs are inserted first. -/
def symEdges (edges : List (Nat × Nat)) : List (Nat × Nat) :=
  pySetOf (edges.map (fun p => (p.2, p.1)) ++ edges)

/-- One step `graph[x].add(y)` on a `defaultdict(set)`: neighbor sets are modelled
as duplicate-free lists in first-insertion order. -/
def addEdge (g : Graph) (x y : Nat) : Graph :=
  match g with
  | [] => [(x, [y])]
  | (k, ns) :: t => if k = x then (k, pyInsert ns y) :: t else (k, ns) :: addEdge t x y

/-- The raw adjacency table accumulated from the symmetrised edge set. -/
def rawGraph (edges : List (Nat × Nat)) : Graph :=
  (symEdges edges).foldl (fun g p => addEdge g p.1 p.2) []

/-- Stable insertion sort: an earlier element is placed before the first later
element it compares `le` to, which reproduces the output of Python's stable
`list.sort`/`sorted` whenever `le` is the non-strict comparison of the sort key. -/
def stableInsert (le : Nat → Nat → Bool) (x : Nat) : List Nat → List Nat
  | [] => [x]
  | y :: ys => if le x y then x :: y :: ys else y :: stableInsert le x ys

/-- Stable sort by the comparison `le` (see `stableInsert`). -/
def stableSort (le : Nat → Nat → Bool) : List Nat → List Nat
  | [] => []
  | x :: xs => stableInsert le x (stableSort le xs)

/-- The sort key `(-graph_degrees[i], nodes_weight_func(nodes[i]))` of the code. -/
def degKey (raw : Graph) (w : Nat → Q) (i : Nat) : ℤ × Q :=
  (-((neighborsOf raw i).length : ℤ), w i)

/-- Non-strict lexicographic comparison of Python tuples `(int, number)`. -/
def lexKeyLe (a b : ℤ × Q) : Bool :=
  decide (a.1 < b.1) || (decide (a.1 = b.1) && decide (a.2 ≤ b.2))

/-- The sorted `node_indexes` list of the code: the keys of the raw adjacency
table, stable-sorted by `(-degree, weight)`. -/
def node_indexes_of (edges : List (Nat × Nat)) (w : Nat → Q) : List Nat :=
  stableSort
    (fun i j => lexKeyLe (degKey (rawGraph edges) w i) (degKey (rawGraph edges) w j))
    (gkeys (rawGraph edges))

/-- Embedding of `create_graph_max_degree_first_then_min_weight_first`: symmetrise
the edges, accumulate adjacency sets, stable-sort the keys by descending degree
then ascending weight, and sort each neighbor list by the rank of the neighbor
in that key order. -/
def create_graph_max_degree_first_then_min_weight_first
    (edges : List (Nat × Nat)) (w : Nat → Q) : Graph :=
  let node_indexes := node_indexes_of edges w
  let rank : Nat → Nat := fun x => node_indexes.indexOf x
  node_indexes.map
    (fun i => (i, stableSort (fun a b => decide (rank a ≤ rank b)) (neighborsOf (rawGraph edges) i)))

/-- Recursive depth-first visit of `find_connected_components.dfs`: mark the node
visited, append it to the component, and recurse into unvisited neighbors.  The
fuel only bounds the recursion depth; every call adds a fresh node to the
visited list, so any fuel larger than the total number of node occurrences in
the table is never exhausted. -/
def dfsVisit (adj : Graph) : Nat → Nat → List Nat × List Nat → List Nat × List Nat
  | 0, _, vc => vc
  | fuel + 1, node, vc =>
    let start : List Nat × List Nat := (node :: vc.1, vc.2 ++ [node])
    (neighborsOf adj node).foldl
      (fun vc2 nb => if nb ∈ vc2.1 then vc2 else dfsVisit adj fuel nb vc2) start

/-- Fuel that strictly exceeds the number of node occurrences in the table. -/
def graphSize (g : Graph) : Nat := g.length + (g.map (fun e => e.2.length)).sum + 1

/-- Embedding of `find_connected_components`: scan the keys in dict order and
start a depth-first visit at every not-yet-visited key, sharing the visited set. -/
def find_connected_components (adj : Graph) : List (List Nat) :=
  ((gkeys adj).foldl
    (fun (st : List Nat × List (List Nat)) node =>
      if node ∈ st.1 then st
      else
        let vc := dfsVisit adj (graphSize adj) node (st.1, [])
        (vc.1, st.2 ++ [vc.2]))
    ([], [])).2

/-- The errors `search_streamed` can raise while validating its input.  The spec
calls the failed node-count assertion `DisconnectedInputError` and the
`ValueError` for a second component `MultiComponentError`; `stopIterationBug` is
the PEP 479 `RuntimeError` produced when the graph has no component at all. -/
inductive SearchErr where
  | disconnectedInput
  | multiComponent
  | stopIterationBug
deriving Repr, DecidableEq

/-- The validation prefix of `search_streamed`: skipped entirely when `quiet`;
otherwise the node-count assertion runs first, then the component check, which
draws up to two components from `find_connected_components`. -/
def validate_input (quiet : Bool) (numNodes : Nat) (g : Graph) : Except SearchErr Unit :=
  if quiet then Except.ok ()
  else if g.length ≠ numNodes then Except.error SearchErr.disconnectedInput
  else
    match find_connected_components g with
    | [] => Except.error SearchErr.stopIterationBug
    | _ :: [] => Except.ok ()
    | _ :: _ :: _ => Except.error SearchErr.multiComponent

/-- The searcher's mutable bound `(current_min_count, current_min_weight_sum)`;
`none` models the initial `float('inf')`. -/
structure SState (Q : Type) where
  minCount : Option Nat
  minWeight : Option Q
deriving DecidableEq

/-- Python `current_count > current_min_count` against a possibly-infinite bound. -/
def gtCount (c : Nat) (m : Option Nat) : Bool :=
  match m with
  | none => false
  | some m => decide (m < c)

/-- Python `current_count == current_min_count` against a possibly-infinite bound. -/
def eqCount (c : Nat) (m : Option Nat) : Bool :=
  match m with
  | none => false
  | some m => decide (c = m)

/-- Python `current_sum >= current_min_weight_sum` against a possibly-infinite bound. -/
def geWeight (s : Q) (m : Option Q) : Bool :=
  match m with
  | none => false
  | some m => decide (m ≤ s)

/-- A yielded solution `(selected_solution, current_count, current_sum)`. -/
abbrev Triple (Q : Type) : Type := List Nat × Nat × Q

/-- Embedding of the generator `MinimalVertexCoverSearcher._search_streamed`,
fully drained: the returned list collects the yielded triples in order and the
returned state is the bound after the call.  The fuel decreases at every
recursive call; since the code only recurses at `idx + 1` when
`idx < len(original_graph)`, fuel `len(original_graph) + 1 - idx` is never
exhausted, and the top level supplies exactly that. -/
def search_streamed_aux (w : Nat → Q) (order : List Nat) :
    Nat → Nat → List Nat → Graph → SState Q → List (Triple Q) × SState Q
  | 0, _, _, _, st => ([], st)
  | fuel + 1, idx, sel, g, st =>
    let cnt := sel.length
    let sum := (sel.map w).sum
    if gtCount cnt st.minCount then ([], st)
    else if eqCount cnt st.minCount && geWeight sum st.minWeight then ([], st)
    else if g = [] then ([(sel, cnt, sum)], ⟨some cnt, some sum⟩)
    else if order.length ≤ idx then ([], st)
    else
      let picked := order.getD idx 0
      if (alookup g picked).isSome then
        let r1 := search_streamed_aux w order fuel (idx + 1) (sel ++ [picked]) (delete_node g picked) st
        let r2 := search_streamed_aux w order fuel (idx + 1) sel g r1.2
        (r1.1 ++ r2.1, r2.2)
      else
        search_streamed_aux w order fuel (idx + 1) sel g st

/-- Embedding of a fully drained `MinimalVertexCoverSearcher.search_streamed`
call on a fresh searcher: build the graph, run the optional validation, compute
`search_order = list(original_graph)` and drain the recursive search from index
`0`, empty candidate, the full graph and an infinite bound.  `numNodes` is
`len(nodes)`, and `quiet` mirrors the constructor flag. -/
def search_streamed_run (quiet : Bool) (numNodes : Nat) (edges : List (Nat × Nat))
    (w : Nat → Q) : Except SearchErr (List (Triple Q)) :=
  let g := create_graph_max_degree_first_then_min_weight_first edges w
  match validate_input quiet numNodes g with
  | Except.error e => Except.error e
  | Except.ok _ => Except.ok (search_streamed_aux w (gkeys g) (g.length + 1) 0 [] g ⟨none, none⟩).1

/-! Basic lemmas about the adjacency-table operations. -/

theorem mem_gpairs {g : Graph} {p : Nat × Nat} :
    p ∈ gpairs g ↔ ∃ e ∈ g, p.1 = e.1 ∧ p.2 ∈ e.2 := by
  induction g with
  | nil => simp [gpairs]
  | cons e t ih =>
    obtain ⟨k, ns⟩ := e
    simp only [gpairs, List.mem_append, List.mem_map, List.mem_cons, ih]
    constructor
    · rintro (⟨m, hm, rfl⟩ | ⟨e2, he2, h1, h2⟩)
      · exact ⟨(k, ns), Or.inl rfl, rfl, hm⟩
      · exact ⟨e2, Or.inr he2, h1, h2⟩
    · rintro ⟨e2, (rfl | he2), h1, h2⟩
      · exact Or.inl ⟨p.2, h2, Prod.ext h1.symm rfl⟩
      · exact Or.inr ⟨e2, he2, h1, h2⟩

theorem fst_mem_gkeys_of_mem_gpairs {g : Graph} {p : Nat × Nat} (h : p ∈ gpairs g) :
    p.1 ∈ gkeys g := by
  obtain ⟨e, he, h1, _⟩ := mem_gpairs.mp h
  exact h1 ▸ List.mem_map_of_mem Prod.fst he

theorem alookup_eq_none {g : Graph} {n : Nat} : alookup g n = none ↔ n ∉ gkeys g := by
  induction g with
  | nil =>
    simp only [gkeys, List.map_nil, List.not_mem_nil, not_false_iff, iff_true]
    rfl
  | cons e t ih =>
    obtain ⟨k, ns⟩ := e
    by_cases h : k = n
    · subst h
      simp [alookup, gkeys]
    · simp [alookup, gkeys, h, ih, Ne.symm h]

theorem alookup_isSome_iff {g : Graph} {n : Nat} : (alookup g n).isSome ↔ n ∈ gkeys g := by
  rcases h : alookup g n with _ | ns
  · simpa using alookup_eq_none.mp h
  · simp only [Option.isSome_some, true_iff]
    by_contra hn
    rw [alookup_eq_none.mpr hn] at h
    cases h

theorem neighborsOf_eq_nil_of_not_mem {g : Graph} {n : Nat} (h : n ∉ gkeys g) :
    neighborsOf g n = [] := by
  unfold neighborsOf
  rw [alookup_eq_none.mpr h]
  rfl

/-- Membership characterisation of the entries of `delete_node`. -/
theorem mem_delete_node {g : Graph} {n : Nat} {e : Nat × List Nat} :
    e ∈ delete_node g n ↔
      ∃ ns, (e.1, ns) ∈ g ∧ e.1 ≠ n ∧ e.2 = ns.filter (fun m => m ≠ n) ∧ e.2 ≠ [] := by
  unfold delete_node
  rw [List.mem_filterMap]
  constructor
  · rintro ⟨⟨k, ns⟩, hmem, hf⟩
    by_cases h1 : k = n
    · simp only [h1, if_pos rfl] at hf
      cases hf
    · by_cases h2 : ns.filter (fun m => m ≠ n) = []
      · simp only [if_neg h1] at hf
        simp only [h2, if_pos rfl] at hf
        cases hf
      · simp only [if_neg h1] at hf
        simp only [if_neg h2] at hf
        obtain rfl := (Option.some.injEq _ _).mp hf
        exact ⟨ns, hmem, h1, rfl, h2⟩
  · rintro ⟨ns, hmem, h3, h4, h5⟩
    refine ⟨(e.1, ns), hmem, ?_⟩
    have h2 : ns.filter (fun m => m ≠ n) ≠ [] := by rw [← h4]; exact h5
    simp only [if_neg h3, if_neg h2, Option.some.injEq]
    rw [← h4]

/-- The master lemma about `delete_node`: exactly the adjacency pairs not
incident to the deleted node survive. -/
theorem mem_gpairs_delete {g : Graph} {n : Nat} {p : Nat × Nat} :
    p ∈ gpairs (delete_node g n) ↔ p ∈ gpairs g ∧ p.1 ≠ n ∧ p.2 ≠ n := by
  rw [mem_gpairs, mem_gpairs]
  constructor
  · rintro ⟨e, he, h1, h2⟩
    obtain ⟨ns, hns, hkn, hfil, _⟩ := mem_delete_node.mp he
    rw [hfil, List.mem_filter] at h2
    refine ⟨⟨(e.1, ns), hns, h1, h2.1⟩, h1 ▸ hkn, by simpa using h2.2⟩
  · rintro ⟨⟨e, he, h1, h2⟩, hp1, hp2⟩
    have hfm : p.2 ∈ e.2.filter (fun m => m ≠ n) := List.mem_filter.mpr ⟨h2, by simpa using hp2⟩
    refine ⟨(e.1, e.2.filter (fun m => m ≠ n)), ?_, h1, hfm⟩
    have hne2 : e.2.filter (fun m => m ≠ n) ≠ [] := by
      intro hnil
      rw [hnil] at hfm
      cases hfm
    exact mem_delete_node.mpr ⟨e.2, by simpa using he, h1 ▸ hp1, rfl, hne2⟩

theorem gkeys_delete_node {g : Graph} {n k : Nat} (h : k ∈ gkeys (delete_node g n)) :
    k ∈ gkeys g ∧ k ≠ n := by
  obtain ⟨e, he, rfl⟩ := List.mem_map.mp h
  obtain ⟨ns, hns, hkn, _, _⟩ := mem_delete_node.mp he
  exact ⟨List.mem_map.mpr ⟨(e.1, ns), hns, rfl⟩, hkn⟩

theorem delete_node_entry_props {g : Graph} {n : Nat} {e : Nat × List Nat}
    (h : e ∈ delete_node g n) : e.2 ≠ [] ∧ n ∉ e.2 := by
  obtain ⟨ns, _, _, hfil, hne⟩ := mem_delete_node.mp h
  refine ⟨hne, fun hmem => ?_⟩
  rw [hfil, List.mem_filter] at hmem
  simpa using hmem.2

/-! Lemmas about the graph-building phase. -/

theorem mem_pyInsert {α : Type} [DecidableEq α] {l : List α} {x y : α} :
    y ∈ pyInsert l x ↔ y ∈ l ∨ y = x := by
  unfold pyInsert
  split_ifs with h
  · constructor
    · exact Or.inl
    · rintro (h2 | rfl)
      · exact h2
      · exact h
  · simp

theorem pyInsert_ne_nil {α : Type} [DecidableEq α] {l : List α} {x : α} :
    pyInsert l x ≠ [] := by
  unfold pyInsert
  split_ifs with h
  · exact List.ne_nil_of_mem h
  · simp

theorem mem_pySetOf {α : Type} [DecidableEq α] {l : List α} {x : α} :
    x ∈ pySetOf l ↔ x ∈ l := by
  have aux : ∀ (l acc : List α), x ∈ l.foldl pyInsert acc ↔ x ∈ acc ∨ x ∈ l := by
    intro l
    induction l with
    | nil => simp
    | cons y t ih =>
      intro acc
      rw [List.foldl_cons, ih, mem_pyInsert]
      simp only [List.mem_cons]
      tauto
  rw [pySetOf, aux]
  simp

theorem mem_symEdges {edges : List (Nat × Nat)} {p : Nat × Nat} :
    p ∈ symEdges edges ↔ (p.2, p.1) ∈ edges ∨ p ∈ edges := by
  rw [symEdges, mem_pySetOf, List.mem_append, List.mem_map]
  constructor
  · rintro (⟨q, hq, rfl⟩ | h)
    · exact Or.inl (by simpa using hq)
    · exact Or.inr h
  · rintro (h | h)
    · exact Or.inl ⟨(p.2, p.1), h, rfl⟩
    · exact Or.inr h

theorem alookup_addEdge {g : Graph} {x y n : Nat} :
    alookup (addEdge g x y) n =
      if n = x then some (pyInsert (neighborsOf g x) y) else alookup g n := by
  induction g with
  | nil =>
    by_cases h : n = x
    · simp [addEdge, alookup, h, neighborsOf, pyInsert]
    · simp [addEdge, alookup, h, neighborsOf, pyInsert, Ne.symm h]
  | cons e t ih =>
    obtain ⟨k, ns⟩ := e
    by_cases hk : k = x
    · subst hk
      by_cases hn : n = k
      · subst hn
        simp [addEdge, alookup, neighborsOf]
      · simp [addEdge, alookup, neighborsOf, hn, Ne.symm hn]
    · by_cases hn : n = k
      · subst hn
        simp [addEdge, alookup, neighborsOf, hk, Ne.symm hk]
      · simp only [addEdge, if_neg hk]
        by_cases hx : n = x
        · subst hx
          simp only [alookup, if_neg (Ne.symm hn), ih, if_pos rfl]
          have : neighborsOf ((k, ns) :: t) n = neighborsOf t n := by
            simp [neighborsOf, alookup, Ne.symm hn]
          rw [this]
        · simp [alookup, Ne.symm hn, ih, hx]

theorem mem_gkeys_addEdge {g : Graph} {x y n : Nat} :
    n ∈ gkeys (addEdge g x y) ↔ n ∈ gkeys g ∨ n = x := by
  have h := @alookup_addEdge g x y n
  by_cases hx : n = x
  · subst hx
    simp only [if_pos rfl] at h
    constructor
    · intro _
      exact Or.inr rfl
    · intro _
      rw [← alookup_isSome_iff, h]
      rfl
  · rw [if_neg hx] at h
    rw [← alookup_isSome_iff, h, alookup_isSome_iff]
    tauto

theorem gkeys_addEdge_nodup {g : Graph} {x y : Nat} (h : (gkeys g).Nodup) :
    (gkeys (addEdge g x y)).Nodup := by
  induction g with
  | nil => simp [addEdge, gkeys]
  | cons e t ih =>
    obtain ⟨k, ns⟩ := e
    simp only [gkeys, List.map_cons, List.nodup_cons] at h
    by_cases hk : k = x
    · simpa [addEdge, hk, gkeys, List.nodup_cons] using h
    · simp only [addEdge, if_neg hk, gkeys, List.map_cons, List.nodup_cons]
      refine ⟨fun hmem => ?_, ih h.2⟩
      rcases (show k ∈ gkeys t ∨ k = x from (mem_gkeys_addEdge).mp hmem) with h2 | h2
      · exact h.1 h2
      · exact hk h2

theorem mem_neighborsOf_foldl {l : List (Nat × Nat)} :
    ∀ {acc : Graph} {n m : Nat},
      m ∈ neighborsOf (l.foldl (fun g p => addEdge g p.1 p.2) acc) n ↔
        m ∈ neighborsOf acc n ∨ (n, m) ∈ l := by
  induction l with
  | nil => simp
  | cons p t ih =>
    intro acc n m
    rw [List.foldl_cons, ih]
    have hne : neighborsOf (addEdge acc p.1 p.2) n =
        if n = p.1 then pyInsert (neighborsOf acc p.1) p.2 else neighborsOf acc n := by
      unfold neighborsOf
      rw [alookup_addEdge]
      split_ifs <;> rfl
    rw [hne]
    by_cases hn : n = p.1
    · subst hn
      rw [if_pos rfl, mem_pyInsert]
      simp only [List.mem_cons]
      constructor
      · rintro ((h | rfl) | h)
        · exact Or.inl h
        · exact Or.inr (Or.inl (by rw [Prod.mk.injEq]; exact ⟨rfl, rfl⟩))
        · exact Or.inr (Or.inr h)
      · rintro (h | (h | h))
        · exact Or.inl (Or.inl h)
        · rw [Prod.mk.injEq] at h
          exact Or.inl (Or.inr h.2)
        · exact Or.inr h
    · rw [if_neg hn]
      simp only [List.mem_cons]
      constructor
      · rintro (h | h)
        · exact Or.inl h
        · exact Or.inr (Or.inr h)
      · rintro (h | (h | h))
        · exact Or.inl h
        · rw [Prod.mk.injEq] at h
          exact absurd h.1 hn
        · exact Or.inr h

theorem mem_neighborsOf_rawGraph {edges : List (Nat × Nat)} {n m : Nat} :
    m ∈ neighborsOf (rawGraph edges) n ↔ (n, m) ∈ symEdges edges := by
  rw [rawGraph, mem_neighborsOf_foldl]
  simp [neighborsOf, alookup]

theorem mem_gkeys_foldl {l : List (Nat × Nat)} :
    ∀ {acc : Graph} {n : Nat},
      n ∈ gkeys (l.foldl (fun g p => addEdge g p.1 p.2) acc) ↔
        n ∈ gkeys acc ∨ ∃ m, (n, m) ∈ l := by
  induction l with
  | nil => simp
  | cons p t ih =>
    intro acc n
    rw [List.foldl_cons, ih, mem_gkeys_addEdge]
    constructor
    · rintro ((h | rfl) | ⟨m, hm⟩)
      · exact Or.inl h
      · exact Or.inr ⟨p.2, List.mem_cons_self _ _⟩
      · exact Or.inr ⟨m, List.mem_cons_of_mem _ hm⟩
    · rintro (h | ⟨m, hm⟩)
      · exact Or.inl (Or.inl h)
      · rcases List.mem_cons.mp hm with h2 | h2
        · exact Or.inl (Or.inr (congrArg Prod.fst h2))
        · exact Or.inr ⟨m, h2⟩

theorem mem_gkeys_rawGraph {edges : List (Nat × Nat)} {n : Nat} :
    n ∈ gkeys (rawGraph edges) ↔ ∃ m, (n, m) ∈ symEdges edges := by
  rw [rawGraph, mem_gkeys_foldl]
  simp [gkeys]

theorem gkeys_rawGraph_nodup {edges : List (Nat × Nat)} : (gkeys (rawGraph edges)).Nodup := by
  rw [rawGraph]
  generalize symEdges edges = l
  have aux : ∀ (l : List (Nat × Nat)) (acc : Graph), (gkeys acc).Nodup →
      (gkeys (l.foldl (fun g p => addEdge g p.1 p.2) acc)).Nodup := by
    intro l
    induction l with
    | nil => exact fun acc h => h
    | cons p t ih => exact fun acc h => ih _ (gkeys_addEdge_nodup h)
  exact aux l [] (by simp [gkeys])

theorem rawGraph_entry_ne_nil {edges : List (Nat × Nat)} {e : Nat × List Nat}
    (h : e ∈ rawGraph edges) : e.2 ≠ [] := by
  rw [rawGraph] at h
  generalize hl : symEdges edges = l at h
  have aux : ∀ (l : List (Nat × Nat)) (acc : Graph),
      (∀ e2 ∈ acc, e2.2 ≠ []) → ∀ e2 ∈ l.foldl (fun g p => addEdge g p.1 p.2) acc, e2.2 ≠ [] := by
    intro l
    induction l with
    | nil => exact fun acc h => h
    | cons p t ih =>
      refine fun acc hacc => ih _ ?_
      have step : ∀ (g : Graph) (x y : Nat), (∀ e2 ∈ g, e2.2 ≠ []) →
          ∀ e2 ∈ addEdge g x y, e2.2 ≠ [] := by
        intro g x y
        induction g with
        | nil =>
          intro _ e2 he2
          simp only [addEdge, List.mem_singleton] at he2
          subst he2
          simp
        | cons hd t2 ih2 =>
          intro hg e2 he2
          obtain ⟨k, ns⟩ := hd
          by_cases hk : k = x
          · rw [addEdge, if_pos hk] at he2
            rcases List.mem_cons.mp he2 with rfl | h2
            · exact pyInsert_ne_nil
            · exact hg e2 (List.mem_cons_of_mem _ h2)
          · rw [addEdge, if_neg hk] at he2
            rcases List.mem_cons.mp he2 with rfl | h2
            · exact hg _ (List.mem_cons_self _ _)
            · exact ih2 (fun e3 he3 => hg e3 (List.mem_cons_of_mem _ he3)) e2 h2
      exact step acc p.1 p.2 hacc
  exact aux l [] (by simp) e h

theorem stableInsert_perm (le : Nat → Nat → Bool) (x : Nat) (l : List Nat) :
    (stableInsert le x l).Perm (x :: l) := by
  induction l with
  | nil => exact List.Perm.refl _
  | cons y ys ih =>
    rw [stableInsert]
    split_ifs
    · exact List.Perm.refl _
    · exact (ih.cons y).trans (List.Perm.swap x y ys)

theorem stableSort_perm (le : Nat → Nat → Bool) (l : List Nat) :
    (stableSort le l).Perm l := by
  induction l with
  | nil => exact List.Perm.refl _
  | cons x xs ih => exact (stableInsert_perm le x (stableSort le xs)).trans (ih.cons x)

theorem mem_stableSort {le : Nat → Nat → Bool} {l : List Nat} {x : Nat} :
    x ∈ stableSort le l ↔ x ∈ l :=
  (stableSort_perm le l).mem_iff

/-! The characterisation of the built graph. -/

theorem create_graph_eq {edges : List (Nat × Nat)} {w : Nat → Q} :
    create_graph_max_degree_first_then_min_weight_first edges w =
      (node_indexes_of edges w).map
        (fun i => (i, stableSort
          (fun a b => decide ((node_indexes_of edges w).indexOf a ≤ (node_indexes_of edges w).indexOf b))
          (neighborsOf (rawGraph edges) i))) := rfl

theorem gkeys_map_graph {L : List Nat} {F : Nat → List Nat} :
    gkeys (L.map (fun i => (i, F i))) = L := by
  simp only [gkeys, List.map_map]
  exact List.map_id L

theorem mem_gpairs_map_graph {L : List Nat} {F : Nat → List Nat} {p : Nat × Nat} :
    p ∈ gpairs (L.map (fun i => (i, F i))) ↔ p.1 ∈ L ∧ p.2 ∈ F p.1 := by
  rw [mem_gpairs]
  constructor
  · rintro ⟨e, he, h1, h2⟩
    obtain ⟨i, hi, rfl⟩ := List.mem_map.mp he
    refine ⟨h1 ▸ hi, ?_⟩
    have h3 : p.1 = i := h1
    rw [h3]
    exact h2
  · rintro ⟨h1, h2⟩
    exact ⟨(p.1, F p.1), List.mem_map.mpr ⟨p.1, h1, rfl⟩, rfl, h2⟩

theorem mem_node_indexes {edges : List (Nat × Nat)} {w : Nat → Q} {n : Nat} :
    n ∈ node_indexes_of edges w ↔ n ∈ gkeys (rawGraph edges) := by
  rw [node_indexes_of, mem_stableSort]

theorem mem_gpairs_create {edges : List (Nat × Nat)} {w : Nat → Q} {p : Nat × Nat} :
    p ∈ gpairs (create_graph_max_degree_first_then_min_weight_first edges w) ↔
      (p.2, p.1) ∈ edges ∨ p ∈ edges := by
  rw [create_graph_eq, mem_gpairs_map_graph, mem_stableSort, mem_node_indexes]
  have h1 : p.1 ∈ gkeys (rawGraph edges) ∧ p.2 ∈ neighborsOf (rawGraph edges) p.1 ↔
      (p.1, p.2) ∈ symEdges edges := by
    constructor
    · exact fun h => mem_neighborsOf_rawGraph.mp h.2
    · exact fun h => ⟨mem_gkeys_rawGraph.mpr ⟨p.2, h⟩, mem_neighborsOf_rawGraph.mpr h⟩
  rw [h1, mem_symEdges]

theorem create_symm {edges : List (Nat × Nat)} {w : Nat → Q} {p : Nat × Nat}
    (h : p ∈ gpairs (create_graph_max_degree_first_then_min_weight_first edges w)) :
    (p.2, p.1) ∈ gpairs (create_graph_max_degree_first_then_min_weight_first edges w) := by
  rw [mem_gpairs_create] at h ⊢
  simpa using h.symm

theorem alookup_of_mem_gkeys {g : Graph} {n : Nat} (h : n ∈ gkeys g) :
    ∃ ns, alookup g n = some ns ∧ (n, ns) ∈ g := by
  induction g with
  | nil => cases h
  | cons e t ih =>
    obtain ⟨k, ns⟩ := e
    by_cases hk : k = n
    · subst hk
      exact ⟨ns, by simp [alookup], List.mem_cons_self _ _⟩
    · have h2 : n ∈ gkeys t := by
        rcases List.mem_cons.mp h with h3 | h3
        · exact absurd h3.symm hk
        · exact h3
      obtain ⟨ns2, h3, h4⟩ := ih h2
      exact ⟨ns2, by simp [alookup, hk, h3], List.mem_cons_of_mem _ h4⟩

theorem create_entry_ne_nil {edges : List (Nat × Nat)} {w : Nat → Q} {e : Nat × List Nat}
    (h : e ∈ create_graph_max_degree_first_then_min_weight_first edges w) : e.2 ≠ [] := by
  rw [create_graph_eq] at h
  obtain ⟨i, hi, rfl⟩ := List.mem_map.mp h
  have hik : i ∈ gkeys (rawGraph edges) := mem_node_indexes.mp hi
  obtain ⟨ns, hlk, hmem⟩ := alookup_of_mem_gkeys hik
  have hns : neighborsOf (rawGraph edges) i = ns := by rw [neighborsOf, hlk]; rfl
  have hne : neighborsOf (rawGraph edges) i ≠ [] := by
    rw [hns]
    exact rawGraph_entry_ne_nil hmem
  intro hnil
  apply hne
  have hlen := (stableSort_perm
    (fun a b => decide ((node_indexes_of edges w).indexOf a ≤ (node_indexes_of edges w).indexOf b))
    (neighborsOf (rawGraph edges) i)).length_eq
  simp only at hnil
  rw [hnil] at hlen
  exact List.eq_nil_of_length_eq_zero hlen.symm

theorem gkeys_create_nodup {edges : List (Nat × Nat)} {w : Nat → Q} :
    (gkeys (create_graph_max_degree_first_then_min_weight_first edges w)).Nodup := by
  rw [create_graph_eq, gkeys_map_graph, node_indexes_of]
  exact ((stableSort_perm _ _).nodup_iff).mpr gkeys_rawGraph_nodup

theorem alookup_of_mem_nodup {g : Graph} (hnd : (gkeys g).Nodup) {k : Nat} {ns : List Nat}
    (h : (k, ns) ∈ g) : alookup g k = some ns := by
  induction g with
  | nil => cases h
  | cons e t ih =>
    obtain ⟨k2, ns2⟩ := e
    simp only [gkeys, List.map_cons, List.nodup_cons] at hnd
    rcases List.mem_cons.mp h with heq | h2
    · rw [Prod.mk.injEq] at heq
      obtain ⟨rfl, rfl⟩ := heq
      simp [alookup]
    · by_cases hk : k2 = k
      · subst hk
        exact absurd (List.mem_map.mpr ⟨(k2, ns), h2, rfl⟩) hnd.1
      · rw [show alookup ((k2, ns2) :: t) k = alookup t k by simp [alookup, hk]]
        exact ih hnd.2 h2

/-! The improvement order on solutions and the bound states. -/

/-- Strict lexicographic order on solution values `(count, weightSum)`:
the sense in which a later solution is strictly better. -/
def vLt (a b : Nat × Q) : Prop := a.1 < b.1 ∨ (a.1 = b.1 ∧ a.2 < b.2)

/-- Non-strict lexicographic order on solution values. -/
def vLe (a b : Nat × Q) : Prop := a.1 < b.1 ∨ (a.1 = b.1 ∧ a.2 ≤ b.2)

/-- The `(count, weightSum)` value of a yielded triple. -/
def tripleVal (t : Triple Q) : Nat × Q := (t.2.1, t.2.2)

/-- The bound of `st` is lexicographically at most the value `v`; the search
prunes a candidate of value `v` exactly when this holds. -/
def stLeV (st : SState Q) (v : Nat × Q) : Prop :=
  (∃ m, st.minCount = some m ∧ m < v.1) ∨
  (∃ m mw, st.minCount = some m ∧ st.minWeight = some mw ∧ m = v.1 ∧ mw ≤ v.2)

theorem not_vLe_iff {a b : Nat × Q} : ¬ vLe a b ↔ vLt b a := by
  unfold vLe vLt
  constructor
  · intro h
    push_neg at h
    rcases Nat.lt_or_ge b.1 a.1 with h1 | h1
    · exact Or.inl h1
    · have h2 : a.1 = b.1 := Nat.le_antisymm h1 h.1
      exact Or.inr ⟨h2.symm, h.2 h2⟩
  · intro h h2
    rcases h with h | h
    · rcases h2 with h2 | h2
      · exact absurd h2 (Nat.lt_asymm h)
      · exact absurd h2.1 (Nat.ne_of_gt h)
    · rcases h2 with h2 | h2
      · exact absurd h2 (h.1 ▸ Nat.lt_irrefl _)
      · exact absurd h2.2 (not_le_of_lt h.2)

theorem stLeV_some_iff {a v : Nat × Q} :
    stLeV ⟨some a.1, some a.2⟩ v ↔ vLe a v := by
  unfold stLeV vLe
  constructor
  · rintro (⟨m, hm, hlt⟩ | ⟨m, mw, hm, hmw, heq, hle⟩)
    · exact Or.inl (by cases hm; exact hlt)
    · cases hm
      cases hmw
      exact Or.inr ⟨heq, hle⟩
  · rintro (h | ⟨h1, h2⟩)
    · exact Or.inl ⟨a.1, rfl, h⟩
    · exact Or.inr ⟨a.1, a.2, rfl, rfl, h1, h2⟩

theorem prune_iff {cnt : Nat} {sum : Q} {st : SState Q} :
    (gtCount cnt st.minCount || (eqCount cnt st.minCount && geWeight sum st.minWeight)) = true ↔
      stLeV st (cnt, sum) := by
  obtain ⟨mc, mw⟩ := st
  rcases mc with _ | m
  · simp [gtCount, eqCount, stLeV]
  · rcases mw with _ | mw2
    · simp only [gtCount, eqCount, geWeight, Bool.and_false, Bool.or_false, decide_eq_true_eq,
        stLeV]
      constructor
      · intro h
        exact Or.inl ⟨m, rfl, h⟩
      · rintro (⟨m2, hm2, h⟩ | ⟨m2, mw2, _, hmw2, _, _⟩)
        · cases hm2
          exact h
        · cases hmw2
    · simp only [gtCount, eqCount, geWeight, Bool.or_eq_true, Bool.and_eq_true,
        decide_eq_true_eq, stLeV]
      constructor
      · rintro (h | ⟨h1, h2⟩)
        · exact Or.inl ⟨m, rfl, h⟩
        · exact Or.inr ⟨m, mw2, rfl, rfl, h1.symm, h2⟩
      · rintro (⟨m2, hm2, h⟩ | ⟨m2, mw3, hm2, hmw3, h1, h2⟩)
        · cases hm2
          exact Or.inl h
        · cases hm2
          cases hmw3
          exact Or.inr ⟨h1.symm, h2⟩

/-- `st2` is at least as tight a bound as `st1`: it prunes everything `st1` prunes. -/
def tighter (st2 st1 : SState Q) : Prop := ∀ v, stLeV st1 v → stLeV st2 v

theorem tighter_refl {st : SState Q} : tighter st st := fun _ h => h

theorem tighter_trans {st3 st2 st1 : SState Q} (h32 : tighter st3 st2) (h21 : tighter st2 st1) :
    tighter st3 st1 := fun v h => h32 v (h21 v h)

theorem tighter_update {st : SState Q} {cnt : Nat} {sum : Q} (h : ¬ stLeV st (cnt, sum)) :
    tighter ⟨some cnt, some sum⟩ st := by
  intro v hv
  rw [show (⟨some cnt, some sum⟩ : SState Q) = ⟨some (cnt, sum).1, some (cnt, sum).2⟩ from rfl,
    stLeV_some_iff]
  unfold stLeV at hv h
  push_neg at h
  rcases hv with ⟨m, hm, hlt⟩ | ⟨m, mw, hm, hmw, heq, hle⟩
  · have hcnt : cnt ≤ m := h.1 m hm
    exact Or.inl (Nat.lt_of_le_of_lt hcnt hlt)
  · have hcnt : cnt ≤ m := h.1 m hm
    rcases lt_or_eq_of_le hcnt with hlt2 | heq2
    · exact Or.inl (heq ▸ hlt2)
    · have hsum : sum < mw := h.2 m mw hm hmw heq2.symm
      exact Or.inr ⟨heq2.trans heq, le_of_lt (lt_of_lt_of_le hsum hle)⟩

/-- The yielded triples strictly improve: each is strictly below the bound in
force when it is yielded, and it becomes the new bound for the rest of the
stream; the final bound is `st2`. -/
def Improving : SState Q → List (Triple Q) → SState Q → Prop
  | st, [], st2 => st2 = st
  | st, t :: ts, st2 => ¬ stLeV st (tripleVal t) ∧ Improving ⟨some t.2.1, some t.2.2⟩ ts st2

theorem improving_append {a b : List (Triple Q)} :
    ∀ {st st1 st2 : SState Q}, Improving st a st1 → Improving st1 b st2 →
      Improving st (a ++ b) st2 := by
  induction a with
  | nil =>
    intro st st1 st2 h1 h2
    cases h1
    exact h2
  | cons t ts ih =>
    intro st st1 st2 h1 h2
    exact ⟨h1.1, ih h1.2 h2⟩

theorem improving_tighter {a : List (Triple Q)} :
    ∀ {st st2 : SState Q}, Improving st a st2 → tighter st2 st := by
  induction a with
  | nil =>
    intro st st2 h
    cases h
    exact tighter_refl
  | cons t ts ih =>
    intro st st2 h
    exact tighter_trans (ih h.2) (tighter_update h.1)

theorem improving_last {a : List (Triple Q)} :
    ∀ {st st2 : SState Q}, Improving st a st2 →
      (a = [] ∧ st2 = st) ∨ (∃ t, a.getLast? = some t ∧ st2 = ⟨some t.2.1, some t.2.2⟩) := by
  induction a with
  | nil =>
    intro st st2 h
    exact Or.inl ⟨rfl, h⟩
  | cons t ts ih =>
    intro st st2 h
    rcases ih h.2 with ⟨rfl, hst⟩ | ⟨t2, hl, hst⟩
    · exact Or.inr ⟨t, rfl, hst⟩
    · refine Or.inr ⟨t2, ?_, hst⟩
      rcases ts with _ | ⟨t3, ts2⟩
      · cases hl
      · rw [List.getLast?_cons_cons]
        exact hl

theorem improving_chain {a : List (Triple Q)} :
    ∀ {st st2 : SState Q}, Improving st a st2 →
      List.Chain' (fun x y => vLt (tripleVal y) (tripleVal x)) a := by
  induction a with
  | nil => intro _ _ _; exact List.chain'_nil
  | cons t ts ih =>
    intro st st2 h
    rcases ts with _ | ⟨t2, ts2⟩
    · exact List.chain'_singleton t
    · refine List.Chain'.cons ?_ (ih h.2)
      have h2 : ¬ stLeV ⟨some t.2.1, some t.2.2⟩ (tripleVal t2) := h.2.1
      rw [show (⟨some t.2.1, some t.2.2⟩ : SState Q)
            = ⟨some (tripleVal t).1, some (tripleVal t).2⟩ from rfl, stLeV_some_iff] at h2
      exact not_vLe_iff.mp h2

/-- Every drain of the recursive search produces a strictly improving stream
whose final bound is the returned state. -/
theorem searchAux_improving (w : Nat → Q) (order : List Nat) :
    ∀ (fuel idx : Nat) (sel : List Nat) (g : Graph) (st : SState Q),
      Improving st (search_streamed_aux w order fuel idx sel g st).1
        (search_streamed_aux w order fuel idx sel g st).2 := by
  intro fuel
  induction fuel with
  | zero =>
    intro idx sel g st
    simp [search_streamed_aux, Improving]
  | succ fuel ih =>
    intro idx sel g st
    rw [search_streamed_aux]
    by_cases h1 : gtCount sel.length st.minCount = true
    · simp only [h1, if_true]
      exact rfl
    · simp only [h1, if_false, Bool.false_eq_true]
      by_cases h2 : (eqCount sel.length st.minCount && geWeight (sel.map w).sum st.minWeight) = true
      · simp only [h2, if_true]
        exact rfl
      · simp only [h2, if_false, Bool.false_eq_true]
        have hnp : ¬ stLeV st (sel.length, (sel.map w).sum) := by
          rw [← prune_iff]
          simp [h1, h2]
        by_cases h3 : g = []
        · simp only [h3, if_pos rfl]
          exact ⟨hnp, rfl⟩
        · simp only [h3, if_false]
          by_cases h4 : order.length ≤ idx
          · simp only [h4, if_pos, if_true]
            exact rfl
          · simp only [h4, if_false]
            by_cases h5 : (alookup g (order.getD idx 0)).isSome
            · simp only [h5, if_true]
              exact improving_append (ih (idx + 1) (sel ++ [order.getD idx 0])
                  (delete_node g (order.getD idx 0)) st)
                (ih (idx + 1) sel g _)
            · simp only [h5, if_false, Bool.false_eq_true]
              exact ih (idx + 1) sel g st

/-- Every yielded triple's candidate covers every adjacency pair of the original
graph and carries its own length and weight sum.  The hypothesis is the branch
invariant: every pair of the original graph is covered by the current candidate
or still present in the current graph. -/
theorem searchAux_sound (w : Nat → Q) (order : List Nat) (g0 : Graph) :
    ∀ (fuel idx : Nat) (sel : List Nat) (g : Graph) (st : SState Q),
      (∀ p ∈ gpairs g0, (p.1 ∈ sel ∨ p.2 ∈ sel) ∨ p ∈ gpairs g) →
      ∀ t ∈ (search_streamed_aux w order fuel idx sel g st).1,
        (∀ p ∈ gpairs g0, p.1 ∈ t.1 ∨ p.2 ∈ t.1) ∧
        t.2.1 = t.1.length ∧ t.2.2 = (t.1.map w).sum := by
  intro fuel
  induction fuel with
  | zero =>
    intro idx sel g st _ t ht
    simp [search_streamed_aux] at ht
  | succ fuel ih =>
    intro idx sel g st H t ht
    rw [search_streamed_aux] at ht
    by_cases h1 : gtCount sel.length st.minCount = true
    · simp only [h1, if_true] at ht
      cases ht
    · simp only [h1, if_false, Bool.false_eq_true] at ht
      by_cases h2 : (eqCount sel.length st.minCount && geWeight (sel.map w).sum st.minWeight) = true
      · simp only [h2, if_true] at ht
        cases ht
      · simp only [h2, if_false, Bool.false_eq_true] at ht
        by_cases h3 : g = []
        · subst h3
          simp only [if_pos rfl] at ht
          rcases List.mem_singleton.mp ht with rfl
          refine ⟨fun p hp => ?_, rfl, rfl⟩
          rcases H p hp with h | h
          · exact h
          · exact absurd h (List.not_mem_nil p)
        · simp only [h3, if_false] at ht
          by_cases h4 : order.length ≤ idx
          · simp only [h4, if_pos, if_true] at ht
            cases ht
          · simp only [h4, if_false] at ht
            by_cases h5 : (alookup g (order.getD idx 0)).isSome
            · simp only [h5, if_true] at ht
              rcases List.mem_append.mp ht with ht1 | ht2
              · refine ih (idx + 1) (sel ++ [order.getD idx 0])
                  (delete_node g (order.getD idx 0)) st ?_ t ht1
                intro p hp
                rcases H p hp with h | h
                · rcases h with h | h
                  · exact Or.inl (Or.inl (List.mem_append.mpr (Or.inl h)))
                  · exact Or.inl (Or.inr (List.mem_append.mpr (Or.inl h)))
                · by_cases hp1 : p.1 = order.getD idx 0
                  · exact Or.inl (Or.inl (List.mem_append.mpr
                      (Or.inr (List.mem_singleton.mpr hp1))))
                  · by_cases hp2 : p.2 = order.getD idx 0
                    · exact Or.inl (Or.inr (List.mem_append.mpr
                        (Or.inr (List.mem_singleton.mpr hp2))))
                    · exact Or.inr (mem_gpairs_delete.mpr ⟨h, hp1, hp2⟩)
              · exact ih (idx + 1) sel g _ H t ht2
            · simp only [h5, if_false, Bool.false_eq_true] at ht
              exact ih (idx + 1) sel g st H t ht

theorem drop_eq_getD_cons {l : List Nat} {i : Nat} (h : i < l.length) :
    l.drop i = l.getD i 0 :: l.drop (i + 1) := by
  induction l generalizing i with
  | nil => cases h
  | cons x t ih =>
    cases i with
    | zero => rfl
    | succ j => exact ih (Nat.lt_of_succ_lt_succ h)

/-- The branch-and-bound completeness invariant: a fully drained call whose
remaining decisions can still trace out the cover `C` leaves a bound that is
lexicographically at most the value `B` bounding what the current candidate
extended by the remaining part of `C` costs. -/
theorem searchAux_opt (w : Nat → Q) (order : List Nat) (hw : ∀ n, 0 ≤ w n)
    (C : Finset Nat) (B : Nat × Q) :
    ∀ (fuel idx : Nat) (sel : List Nat) (g : Graph) (st : SState Q),
      order.length + 1 ≤ fuel + idx →
      idx ≤ order.length →
      (∀ p ∈ gpairs g, (p.2, p.1) ∈ gpairs g) →
      (∀ e ∈ g, e.2 ≠ []) →
      (∀ k ∈ gkeys g, k ∈ C → k ∈ order.drop idx) →
      (∀ p ∈ gpairs g, p.1 ∈ C ∨ p.2 ∈ C) →
      sel.length + (C.filter (fun x => x ∈ gkeys g)).card ≤ B.1 →
      (sel.map w).sum + (C.filter (fun x => x ∈ gkeys g)).sum w ≤ B.2 →
      stLeV (search_streamed_aux w order fuel idx sel g st).2 B := by
  intro fuel
  induction fuel with
  | zero =>
    intro idx sel g st hfuel hidx _ _ _ _ _ _
    omega
  | succ fuel ih =>
    intro idx sel g st hfuel hidx hsym hne hrem hcov hcnt hsum
    have hfilter_nonneg : (0:Q) ≤ (C.filter (fun x => x ∈ gkeys g)).sum w :=
      Finset.sum_nonneg (fun i _ => hw i)
    rw [search_streamed_aux]
    by_cases h1 : gtCount sel.length st.minCount = true
    · simp only [h1, if_true]
      rcases hmc : st.minCount with _ | m
      · rw [hmc] at h1
        cases h1
      · rw [hmc] at h1
        simp only [gtCount, decide_eq_true_eq] at h1
        have hcard := Finset.card_filter_le C (fun x => x ∈ gkeys g)
        exact Or.inl ⟨m, hmc, by omega⟩
    · simp only [h1, if_false, Bool.false_eq_true]
      by_cases h2 : (eqCount sel.length st.minCount && geWeight (sel.map w).sum st.minWeight) = true
      · simp only [h2, if_true]
        rw [Bool.and_eq_true] at h2
        rcases hmc : st.minCount with _ | m
        · rw [hmc] at h2
          cases h2.1
        · rcases hmw : st.minWeight with _ | mw
          · rw [hmw] at h2
            cases h2.2
          · rw [hmc] at h2
            rw [hmw] at h2
            simp only [eqCount, geWeight, decide_eq_true_eq] at h2
            obtain ⟨hcnt2, hmwle⟩ := h2
            have hle : m ≤ B.1 := by omega
            rcases lt_or_eq_of_le hle with hlt | heqB
            · exact Or.inl ⟨m, hmc, hlt⟩
            · refine Or.inr ⟨m, mw, hmc, hmw, heqB, ?_⟩
              have h6 : (sel.map w).sum ≤ B.2 :=
                le_trans (le_add_of_nonneg_right hfilter_nonneg) hsum
              exact le_trans hmwle h6
      · simp only [h2, if_false, Bool.false_eq_true]
        by_cases h3 : g = []
        · subst h3
          simp only [if_pos rfl]
          have hemp : C.filter (fun x => x ∈ gkeys ([] : Graph)) = ∅ :=
            Finset.filter_eq_empty_iff.mpr (fun hx => by simp [gkeys])
          rw [hemp] at hcnt hsum
          simp only [Finset.card_empty, Finset.sum_empty, Nat.add_zero, add_zero] at hcnt hsum
          rcases lt_or_eq_of_le hcnt with hlt | heqB
          · exact Or.inl ⟨sel.length, rfl, hlt⟩
          · exact Or.inr ⟨sel.length, (sel.map w).sum, rfl, rfl, heqB, hsum⟩
        · simp only [h3, if_false]
          by_cases h4 : order.length ≤ idx
          · exfalso
            obtain ⟨e, he⟩ := List.exists_mem_of_ne_nil g h3
            obtain ⟨m, hm⟩ := List.exists_mem_of_ne_nil e.2 (hne e he)
            have hp : (e.1, m) ∈ gpairs g := mem_gpairs.mpr ⟨e, he, rfl, hm⟩
            have hdrop : order.drop idx = [] := List.drop_eq_nil_of_le h4
            rcases hcov _ hp with hc | hc
            · have hk : e.1 ∈ gkeys g := fst_mem_gkeys_of_mem_gpairs hp
              have := hrem e.1 hk hc
              rw [hdrop] at this
              cases this
            · have hp2 : (m, e.1) ∈ gpairs g := hsym _ hp
              have hk : m ∈ gkeys g := fst_mem_gkeys_of_mem_gpairs hp2
              have := hrem m hk hc
              rw [hdrop] at this
              cases this
          · simp only [h4, if_false]
            have hlt : idx < order.length := Nat.lt_of_not_le h4
            have hdec : order.drop idx = order.getD idx 0 :: order.drop (idx + 1) :=
              drop_eq_getD_cons hlt
            by_cases h5 : (alookup g (order.getD idx 0)).isSome
            · simp only [h5, if_true]
              have hpk : order.getD idx 0 ∈ gkeys g := alookup_isSome_iff.mp h5
              by_cases hpc : order.getD idx 0 ∈ C
              · -- the include branch follows the cover C
                have hpm : order.getD idx 0 ∈ C.filter (fun x => x ∈ gkeys g) :=
                  Finset.mem_filter.mpr ⟨hpc, hpk⟩
                have hsub : C.filter (fun x => x ∈ gkeys (delete_node g (order.getD idx 0))) ⊆
                    (C.filter (fun x => x ∈ gkeys g)).erase (order.getD idx 0) := by
                  intro x hx
                  rw [Finset.mem_filter] at hx
                  obtain ⟨hxC, hxk⟩ := hx
                  obtain ⟨hxg, hxne⟩ := gkeys_delete_node hxk
                  exact Finset.mem_erase.mpr ⟨hxne, Finset.mem_filter.mpr ⟨hxC, hxg⟩⟩
                have hr1 : stLeV (search_streamed_aux w order fuel (idx + 1)
                    (sel ++ [order.getD idx 0]) (delete_node g (order.getD idx 0)) st).2 B := by
                  refine ih (idx + 1) (sel ++ [order.getD idx 0])
                    (delete_node g (order.getD idx 0)) st (by omega) hlt ?_ ?_ ?_ ?_ ?_ ?_
                  · intro p hp
                    obtain ⟨hpg, hp1, hp2⟩ := mem_gpairs_delete.mp hp
                    exact mem_gpairs_delete.mpr ⟨hsym p hpg, hp2, hp1⟩
                  · exact fun e he => (delete_node_entry_props he).1
                  · intro k hk hkC
                    obtain ⟨hkg, hkne⟩ := gkeys_delete_node hk
                    have := hrem k hkg hkC
                    rw [hdec] at this
                    rcases List.mem_cons.mp this with heq | htail
                    · exact absurd heq hkne
                    · exact htail
                  · exact fun p hp => hcov p (mem_gpairs_delete.mp hp).1
                  · have hcard1 : (C.filter (fun x =>
                        x ∈ gkeys (delete_node g (order.getD idx 0)))).card ≤
                        ((C.filter (fun x => x ∈ gkeys g)).erase (order.getD idx 0)).card :=
                      Finset.card_le_card hsub
                    have hcard2 := Finset.card_erase_of_mem hpm
                    have hpos : 0 < (C.filter (fun x => x ∈ gkeys g)).card :=
                      Finset.card_pos.mpr ⟨_, hpm⟩
                    have hlen : (sel ++ [order.getD idx 0]).length = sel.length + 1 := by
                      simp
                    omega
                  · have hsum1 : (C.filter (fun x =>
                        x ∈ gkeys (delete_node g (order.getD idx 0)))).sum w ≤
                        ((C.filter (fun x => x ∈ gkeys g)).erase (order.getD idx 0)).sum w :=
                      Finset.sum_le_sum_of_subset_of_nonneg hsub (fun i _ _ => hw i)
                    have hsum2 : w (order.getD idx 0) +
                        ((C.filter (fun x => x ∈ gkeys g)).erase (order.getD idx 0)).sum w =
                        (C.filter (fun x => x ∈ gkeys g)).sum w :=
                      Finset.add_sum_erase _ w hpm
                    have hmap : ((sel ++ [order.getD idx 0]).map w).sum =
                        (sel.map w).sum + w (order.getD idx 0) := by
                      simp
                    rw [hmap]
                    calc (sel.map w).sum + w (order.getD idx 0) +
                        (C.filter (fun x =>
                          x ∈ gkeys (delete_node g (order.getD idx 0)))).sum w
                        ≤ (sel.map w).sum + w (order.getD idx 0) +
                          ((C.filter (fun x => x ∈ gkeys g)).erase (order.getD idx 0)).sum w :=
                          add_le_add_left hsum1 _
                      _ = (sel.map w).sum + (w (order.getD idx 0) +
                          ((C.filter (fun x => x ∈ gkeys g)).erase (order.getD idx 0)).sum w) :=
                          add_assoc _ _ _
                      _ = (sel.map w).sum + (C.filter (fun x => x ∈ gkeys g)).sum w := by
                          rw [hsum2]
                      _ ≤ B.2 := hsum
                exact improving_tighter (searchAux_improving w order fuel (idx + 1) sel g _) B hr1
              · -- the exclude branch follows the cover C
                show stLeV (search_streamed_aux w order fuel (idx + 1) sel g _).2 B
                refine ih (idx + 1) sel g _ (by omega) hlt hsym hne ?_ hcov hcnt hsum
                intro k hk hkC
                have := hrem k hk hkC
                rw [hdec] at this
                rcases List.mem_cons.mp this with heq | htail
                · exact absurd (heq ▸ hkC) hpc
                · exact htail
            · simp only [h5, if_false, Bool.false_eq_true]
              refine ih (idx + 1) sel g st (by omega) hlt hsym hne ?_ hcov hcnt hsum
              intro k hk hkC
              have := hrem k hk hkC
              rw [hdec] at this
              rcases List.mem_cons.mp this with heq | htail
              · exact absurd (heq ▸ hk) (fun h => h5 (alookup_isSome_iff.mpr h))
              · exact htail

theorem run_ok_iff {quiet : Bool} {numNodes : Nat} {edges : List (Nat × Nat)} {w : Nat → Q}
    {ys : List (Triple Q)} :
    search_streamed_run quiet numNodes edges w = Except.ok ys ↔
      (validate_input quiet numNodes
          (create_graph_max_degree_first_then_min_weight_first edges w) = Except.ok () ∧
        ys = (search_streamed_aux w
          (gkeys (create_graph_max_degree_first_then_min_weight_first edges w))
          ((create_graph_max_degree_first_then_min_weight_first edges w).length + 1)
          0 [] (create_graph_max_degree_first_then_min_weight_first edges w)
          ⟨none, none⟩).1) := by
  unfold search_streamed_run
  rcases h : validate_input quiet numNodes
      (create_graph_max_degree_first_then_min_weight_first edges w) with e | u
  · simp [h]
  · rcases u
    simp [h, eq_comm]

theorem mem_of_getLast?_eq {α : Type} {l : List α} {a : α} : l.getLast? = some a → a ∈ l := by
  induction l with
  | nil =>
    intro h
    cases h
  | cons x t ih =>
    intro h
    rcases t with _ | ⟨y, t2⟩
    · simp only [List.getLast?_singleton, Option.some.injEq] at h
      exact h ▸ List.mem_singleton_self x
    · rw [List.getLast?_cons_cons] at h
      exact List.mem_cons_of_mem _ (ih h)

/-- Abbreviation used by the top-level theorems: the entire drained run. -/
def fullDrain (edges : List (Nat × Nat)) (w : Nat → Q) : List (Triple Q) × SState Q :=
  search_streamed_aux w (gkeys (create_graph_max_degree_first_then_min_weight_first edges w))
    ((create_graph_max_degree_first_then_min_weight_first edges w).length + 1)
    0 [] (create_graph_max_degree_first_then_min_weight_first edges w) ⟨none, none⟩

theorem fullDrain_opt {edges : List (Nat × Nat)} {w : Nat → Q} (hw : ∀ n, 0 ≤ w n)
    {C : Finset Nat} (hC : ∀ p ∈ edges, p.1 ∈ C ∨ p.2 ∈ C) :
    stLeV (fullDrain edges w).2 (C.card, C.sum w) := by
  have hlen : (gkeys (create_graph_max_degree_first_then_min_weight_first edges w)).length =
      (create_graph_max_degree_first_then_min_weight_first edges w).length := by
    simp [gkeys]
  refine searchAux_opt w _ hw C (C.card, C.sum w) _ 0 [] _ ⟨none, none⟩
    (by omega) (Nat.zero_le _) (fun p hp => create_symm hp) (fun e he => create_entry_ne_nil he)
    ?_ ?_ ?_ ?_
  · intro k hk _
    rw [List.drop_zero]
    exact hk
  · intro p hp
    rcases mem_gpairs_create.mp hp with h | h
    · rcases hC _ h with h2 | h2
      · exact Or.inr h2
      · exact Or.inl h2
    · exact hC _ h
  · have := Finset.card_filter_le C
      (fun x => x ∈ gkeys (create_graph_max_degree_first_then_min_weight_first edges w))
    simpa using this
  · have h1 : (C.filter (fun x =>
        x ∈ gkeys (create_graph_max_degree_first_then_min_weight_first edges w))).sum w ≤
        C.sum w :=
      Finset.sum_le_sum_of_subset_of_nonneg (Finset.filter_subset _ _) (fun i _ _ => hw i)
    simpa using h1

/-- C1: drained to exhaustion, `search_streamed` ends with a triple that is a
vertex cover of the input of minimum `(count, weightSum)` in the lexicographic
order: its cover covers every input edge, its count and weight sum are those of
its cover, and no vertex cover at all has a lexicographically smaller value. -/
theorem searchStreamed_last_triple_minimum (quiet : Bool) (numNodes : Nat)
    (edges : List (Nat × Nat)) (w : Nat → Q) (ys : List (Triple Q))
    (hw : ∀ n, 0 ≤ w n)
    (hrun : search_streamed_run quiet numNodes edges w = Except.ok ys) :
    ys ≠ [] ∧
      ∀ t, ys.getLast? = some t →
        (∀ p ∈ edges, p.1 ∈ t.1 ∨ p.2 ∈ t.1) ∧
        t.2.1 = t.1.length ∧ t.2.2 = (t.1.map w).sum ∧
        ∀ C : Finset Nat, (∀ p ∈ edges, p.1 ∈ C ∨ p.2 ∈ C) →
          ¬ vLt (C.card, C.sum w) (tripleVal t) := by
  obtain ⟨-, rfl⟩ := run_ok_iff.mp hrun
  have himp := searchAux_improving w
    (gkeys (create_graph_max_degree_first_then_min_weight_first edges w))
    ((create_graph_max_degree_first_then_min_weight_first edges w).length + 1)
    0 [] (create_graph_max_degree_first_then_min_weight_first edges w) ⟨none, none⟩
  have hne : (fullDrain edges w).1 ≠ [] := by
    intro hnil
    have hlast := improving_last himp
    rw [show (fullDrain edges w).1 =
      (search_streamed_aux w
        (gkeys (create_graph_max_degree_first_then_min_weight_first edges w))
        ((create_graph_max_degree_first_then_min_weight_first edges w).length + 1)
        0 [] (create_graph_max_degree_first_then_min_weight_first edges w) ⟨none, none⟩).1
      from rfl] at hnil
    rcases hlast with ⟨_, hst⟩ | ⟨t, hl, _⟩
    · -- the final bound would still be infinite, contradicting optimality at the
      -- cover consisting of every key
      have hC : ∀ p ∈ edges,
          p.1 ∈ (gkeys (create_graph_max_degree_first_then_min_weight_first edges w)).toFinset ∨
          p.2 ∈ (gkeys (create_graph_max_degree_first_then_min_weight_first edges w)).toFinset := by
        intro p hp
        have hpg : p ∈ gpairs (create_graph_max_degree_first_then_min_weight_first edges w) :=
          mem_gpairs_create.mpr (Or.inr hp)
        exact Or.inl (List.mem_toFinset.mpr (fst_mem_gkeys_of_mem_gpairs hpg))
      have hopt := fullDrain_opt hw hC
      rw [show (fullDrain edges w).2 =
        (search_streamed_aux w
          (gkeys (create_graph_max_degree_first_then_min_weight_first edges w))
          ((create_graph_max_degree_first_then_min_weight_first edges w).length + 1)
          0 [] (create_graph_max_degree_first_then_min_weight_first edges w) ⟨none, none⟩).2
        from rfl, hst] at hopt
      rcases hopt with ⟨m, hm, _⟩ | ⟨m, _, hm, _, _, _⟩ <;> cases hm
    · rw [hnil] at hl
      cases hl
  refine ⟨hne, fun t ht => ?_⟩
  have htmem : t ∈ (fullDrain edges w).1 := mem_of_getLast?_eq ht
  have hsound := searchAux_sound w
    (gkeys (create_graph_max_degree_first_then_min_weight_first edges w))
    (create_graph_max_degree_first_then_min_weight_first edges w)
    ((create_graph_max_degree_first_then_min_weight_first edges w).length + 1)
    0 [] (create_graph_max_degree_first_then_min_weight_first edges w) ⟨none, none⟩
    (fun p hp => Or.inr hp) t htmem
  refine ⟨?_, hsound.2.1, hsound.2.2, ?_⟩
  · intro p hp
    exact hsound.1 p (mem_gpairs_create.mpr (Or.inr hp))
  · intro C hC
    have hopt := fullDrain_opt hw hC
    rcases improving_last himp with ⟨hnil, _⟩ | ⟨t2, hl2, hst2⟩
    · exact absurd hnil hne
    · have ht2 : t2 = t := by
        have := hl2.symm.trans ht
        exact (Option.some.injEq _ _).mp this
      subst ht2
      rw [show (fullDrain edges w).2 =
        (search_streamed_aux w
          (gkeys (create_graph_max_degree_first_then_min_weight_first edges w))
          ((create_graph_max_degree_first_then_min_weight_first edges w).length + 1)
          0 [] (create_graph_max_degree_first_then_min_weight_first edges w) ⟨none, none⟩).2
        from rfl, hst2] at hopt
      have hvle : vLe (tripleVal t2) (C.card, C.sum w) := by
        rw [show (⟨some t2.2.1, some t2.2.2⟩ : SState Q) =
          ⟨some (tripleVal t2).1, some (tripleVal t2).2⟩ from rfl, stLeV_some_iff] at hopt
        exact hopt
      intro hvlt
      exact not_vLe_iff.mpr hvlt hvle

/-- C2: every triple yielded by `search_streamed` (not only the last one) is a
valid vertex cover of the input: for every input edge, one endpoint is a member
of the yielded cover (and the count and weight fields describe that cover). -/
theorem searchStreamed_every_yield_is_cover (quiet : Bool) (numNodes : Nat)
    (edges : List (Nat × Nat)) (w : Nat → Q) (ys : List (Triple Q))
    (hrun : search_streamed_run quiet numNodes edges w = Except.ok ys) :
    ∀ t ∈ ys, (∀ p ∈ edges, p.1 ∈ t.1 ∨ p.2 ∈ t.1) ∧
      t.2.1 = t.1.length ∧ t.2.2 = (t.1.map w).sum := by
  obtain ⟨-, rfl⟩ := run_ok_iff.mp hrun
  intro t ht
  have hsound := searchAux_sound w
    (gkeys (create_graph_max_degree_first_then_min_weight_first edges w))
    (create_graph_max_degree_first_then_min_weight_first edges w)
    ((create_graph_max_degree_first_then_min_weight_first edges w).length + 1)
    0 [] (create_graph_max_degree_first_then_min_weight_first edges w) ⟨none, none⟩
    (fun p hp => Or.inr hp) t ht
  exact ⟨fun p hp => hsound.1 p (mem_gpairs_create.mpr (Or.inr hp)), hsound.2.1, hsound.2.2⟩

/-- C3: the yielded stream is strictly improving in the lexicographic order on
`(count, weightSum)` -- each consecutive triple has a smaller count, or an equal
count and a smaller weight sum -- and the tracked bound starts infinite and only
tightens, following exactly the values of the yields. -/
theorem searchStreamed_strictly_improving (quiet : Bool) (numNodes : Nat)
    (edges : List (Nat × Nat)) (w : Nat → Q) (ys : List (Triple Q))
    (hrun : search_streamed_run quiet numNodes edges w = Except.ok ys) :
    List.Chain' (fun a b => vLt (tripleVal b) (tripleVal a)) ys ∧
      ∃ final : SState Q, Improving ⟨none, none⟩ ys final := by
  obtain ⟨-, rfl⟩ := run_ok_iff.mp hrun
  have himp := searchAux_improving w
    (gkeys (create_graph_max_degree_first_then_min_weight_first edges w))
    ((create_graph_max_degree_first_then_min_weight_first edges w).length + 1)
    0 [] (create_graph_max_degree_first_then_min_weight_first edges w) ⟨none, none⟩
  exact ⟨improving_chain himp, ⟨_, himp⟩⟩

deriving instance DecidableEq for Except

theorem create_adj {edges : List (Nat × Nat)} {w : Nat → Q} {u v : Nat}
    (h : (u, v) ∈ gpairs (create_graph_max_degree_first_then_min_weight_first edges w)) :
    ∃ ns, alookup (create_graph_max_degree_first_then_min_weight_first edges w) u = some ns ∧
      v ∈ ns ∧ ns ≠ [] := by
  obtain ⟨e, he, he1, he2⟩ := mem_gpairs.mp h
  have he' : (u, e.2) ∈ create_graph_max_degree_first_then_min_weight_first edges w := by
    have h2 : u = e.1 := he1
    rw [h2]
    exact he
  exact ⟨e.2, alookup_of_mem_nodup gkeys_create_nodup he', he2, List.ne_nil_of_mem he2⟩

/-- C8: the built graph is symmetric and total over the input edges: for every
input pair `(u,v)`, `v` is a member of `graph[u]` and `u` a member of
`graph[v]`, so both endpoints are keys with non-empty neighbor lists. -/
theorem graph_builder_symmetric_total (edges : List (Nat × Nat)) (w : Nat → Q) :
    ∀ p ∈ edges,
      (∃ ns, alookup (create_graph_max_degree_first_then_min_weight_first edges w) p.1 =
        some ns ∧ p.2 ∈ ns ∧ ns ≠ []) ∧
      (∃ ns, alookup (create_graph_max_degree_first_then_min_weight_first edges w) p.2 =
        some ns ∧ p.1 ∈ ns ∧ ns ≠ []) := by
  intro p hp
  have h1 : (p.1, p.2) ∈ gpairs (create_graph_max_degree_first_then_min_weight_first edges w) :=
    mem_gpairs_create.mpr (Or.inr hp)
  have h2 : (p.2, p.1) ∈ gpairs (create_graph_max_degree_first_then_min_weight_first edges w) :=
    mem_gpairs_create.mpr (Or.inl (by simpa using hp))
  exact ⟨create_adj h1, create_adj h2⟩

/-- C10: deleting a node from a symmetric graph with non-empty neighbor lists
(the embedding is pure, so the input value is untouched by construction) yields
a graph where the node is no key and no neighbor, symmetry and non-emptiness
are preserved, and the adjacencies not incident to the node are exactly those
of the input. -/
theorem delete_node_contract (g : Graph) (n : Nat)
    (hsym : ∀ p ∈ gpairs g, (p.2, p.1) ∈ gpairs g)
    (hne : ∀ e ∈ g, e.2 ≠ []) :
    n ∉ gkeys (delete_node g n) ∧
    (∀ e ∈ delete_node g n, n ∉ e.2 ∧ e.2 ≠ []) ∧
    (∀ p ∈ gpairs (delete_node g n), (p.2, p.1) ∈ gpairs (delete_node g n)) ∧
    (∀ p : Nat × Nat, p.1 ≠ n → p.2 ≠ n →
      (p ∈ gpairs (delete_node g n) ↔ p ∈ gpairs g)) := by
  refine ⟨?_, ?_, ?_, ?_⟩
  · intro hk
    exact (gkeys_delete_node hk).2 rfl
  · exact fun e he => ⟨(delete_node_entry_props he).2, (delete_node_entry_props he).1⟩
  · intro p hp
    obtain ⟨hpg, h1, h2⟩ := mem_gpairs_delete.mp hp
    exact mem_gpairs_delete.mpr ⟨hsym p hpg, h2, h1⟩
  · intro p h1 h2
    rw [mem_gpairs_delete]
    exact ⟨fun h => h.1, fun h => ⟨h, h1, h2⟩⟩

/-- The visitation order of a search: `search_order = list(original_graph)`. -/
def visitation_order (edges : List (Nat × Nat)) (w : Nat → Q) : List Nat :=
  gkeys (create_graph_max_degree_first_then_min_weight_first edges w)

theorem visitation_order_eq {edges : List (Nat × Nat)} {w : Nat → Q} :
    visitation_order edges w = node_indexes_of edges w := by
  rw [visitation_order, create_graph_eq, gkeys_map_graph]

theorem lexKeyLe_refl {Qv : Type} [LinearOrderedAddCommMonoid Qv] (a : ℤ × Qv) :
    lexKeyLe a a = true := by
  simp [lexKeyLe]

theorem lexKeyLe_total {Qv : Type} [LinearOrderedAddCommMonoid Qv] (a b : ℤ × Qv)
    (h : lexKeyLe a b = false) : lexKeyLe b a = true := by
  simp only [lexKeyLe, Bool.or_eq_false_iff, Bool.and_eq_false_iff, decide_eq_false_iff_not] at h
  simp only [lexKeyLe, Bool.or_eq_true, Bool.and_eq_true, decide_eq_true_eq]
  rcases h with ⟨h1, h2⟩
  rcases lt_trichotomy a.1 b.1 with h3 | h3 | h3
  · exact absurd h3 h1
  · rcases h2 with h2 | h2
    · exact absurd h3 (by simpa using h2)
    · exact Or.inr ⟨h3.symm, le_of_not_le (by simpa using h2)⟩
  · exact Or.inl h3

theorem lexKeyLe_trans {Qv : Type} [LinearOrderedAddCommMonoid Qv] (a b c : ℤ × Qv)
    (h1 : lexKeyLe a b = true) (h2 : lexKeyLe b c = true) : lexKeyLe a c = true := by
  simp only [lexKeyLe, Bool.or_eq_true, Bool.and_eq_true, decide_eq_true_eq] at h1 h2 ⊢
  rcases h1 with h1 | ⟨h1a, h1b⟩
  · rcases h2 with h2 | ⟨h2a, h2b⟩
    · exact Or.inl (lt_trans h1 h2)
    · exact Or.inl (h2a ▸ h1)
  · rcases h2 with h2 | ⟨h2a, h2b⟩
    · exact Or.inl (h1a ▸ h2)
    · exact Or.inr ⟨h1a.trans h2a, le_trans h1b h2b⟩

theorem stableInsert_chain {le : Nat → Nat → Bool}
    (htot : ∀ x y, le x y = false → le y x = true) (x : Nat) :
    ∀ l : List Nat, List.Chain' (fun a b => le a b = true) l →
      List.Chain' (fun a b => le a b = true) (stableInsert le x l) := by
  intro l
  induction l with
  | nil =>
    intro _
    simp [stableInsert]
  | cons y ys ih =>
    intro hch
    rw [stableInsert]
    by_cases hle : le x y = true
    · rw [if_pos hle]
      exact List.Chain'.cons hle hch
    · have hxy : le x y = false := by simpa using hle
      rw [if_neg hle]
      rw [List.chain'_cons']
      refine ⟨?_, ih (List.Chain'.tail hch)⟩
      intro z hz
      rcases ys with _ | ⟨y2, ys2⟩
      · simp only [stableInsert, List.head?_cons, Option.mem_def, Option.some.injEq] at hz
        rw [← hz]
        exact htot x y hxy
      · rw [stableInsert] at hz
        by_cases hle2 : le x y2 = true
        · rw [if_pos hle2] at hz
          simp only [List.head?_cons, Option.mem_def, Option.some.injEq] at hz
          rw [← hz]
          exact htot x y hxy
        · rw [if_neg hle2] at hz
          simp only [List.head?_cons, Option.mem_def, Option.some.injEq] at hz
          rw [← hz]
          exact (List.chain'_cons.mp hch).1

theorem stableSort_chain {le : Nat → Nat → Bool}
    (htot : ∀ x y, le x y = false → le y x = true) :
    ∀ l : List Nat, List.Chain' (fun a b => le a b = true) (stableSort le l) := by
  intro l
  induction l with
  | nil => exact List.chain'_nil
  | cons x xs ih => exact stableInsert_chain htot x _ ih

theorem stableInsert_filter {κ : Type} [DecidableEq κ] {k : Nat → κ} {le : Nat → Nat → Bool}
    (hrefl : ∀ x y, k x = k y → le x y = true) (x : Nat) (v : κ) :
    ∀ l : List Nat,
      (stableInsert le x l).filter (fun a => k a = v) =
        if k x = v then x :: l.filter (fun a => k a = v)
        else l.filter (fun a => k a = v) := by
  intro l
  induction l with
  | nil =>
    rw [stableInsert]
    by_cases hk : k x = v <;> simp [hk]
  | cons y ys ih =>
    rw [stableInsert]
    by_cases hle : le x y = true
    · rw [if_pos hle]
      by_cases hk : k x = v <;> simp [List.filter_cons, hk]
    · have hxy : k x ≠ k y := fun hh => hle (hrefl x y hh)
      rw [if_neg hle, List.filter_cons, ih]
      by_cases hk : k x = v
      · have hky : ¬ (k y = v) := fun hh => hxy (hk.trans hh.symm)
        simp [List.filter_cons, hk, hky]
      · by_cases hky : k y = v <;> simp [List.filter_cons, hk, hky]

theorem stableSort_filter {κ : Type} [DecidableEq κ] {k : Nat → κ} {le : Nat → Nat → Bool}
    (hrefl : ∀ x y, k x = k y → le x y = true) (v : κ) :
    ∀ l : List Nat,
      (stableSort le l).filter (fun a => k a = v) = l.filter (fun a => k a = v) := by
  intro l
  induction l with
  | nil => rfl
  | cons x xs ih =>
    rw [stableSort, stableInsert_filter hrefl, List.filter_cons, ih]
    by_cases hk : k x = v <;> simp [hk]

/-- C5 (amended): the visitation order is a permutation of the graph keys and is
pairwise sorted by descending original degree then ascending weight; nodes tied
on both keys keep the relative order of the internal key enumeration of the
symmetrised edge set (`gkeys (rawGraph edges)`), which is the iteration order of
a Python set and not, in general, the caller's input order. -/
theorem visitation_order_characterisation [DecidableEq Q]
    (edges : List (Nat × Nat)) (w : Nat → Q) :
    (visitation_order edges w).Perm (gkeys (rawGraph edges)) ∧
    List.Pairwise (fun a b =>
      lexKeyLe (degKey (rawGraph edges) w a) (degKey (rawGraph edges) w b) = true)
      (visitation_order edges w) ∧
    ∀ v : ℤ × Q,
      (visitation_order edges w).filter (fun a => degKey (rawGraph edges) w a = v) =
        (gkeys (rawGraph edges)).filter (fun a => degKey (rawGraph edges) w a = v) := by
  rw [visitation_order_eq, node_indexes_of]
  refine ⟨stableSort_perm _ _, ?_, ?_⟩
  · letI : IsTrans Nat (fun a b =>
        lexKeyLe (degKey (rawGraph edges) w a) (degKey (rawGraph edges) w b) = true) :=
      ⟨fun a b c h1 h2 => lexKeyLe_trans _ _ _ h1 h2⟩
    rw [← List.chain'_iff_pairwise]
    exact stableSort_chain (fun x y h => lexKeyLe_total _ _ h) _
  · intro v
    exact stableSort_filter
      (fun x y h => by
        show lexKeyLe (degKey (rawGraph edges) w x) (degKey (rawGraph edges) w y) = true
        rw [h]
        exact lexKeyLe_refl _) v _

/-- Modelled from the spec: the visitation order claim C5 describes -- all graph
nodes sorted by the same `(-degree, weight)` key, but with ties broken into the
caller's input order, i.e. ascending position in the externally owned node
list. -/
def claimed_visitation_order (numNodes : Nat) (edges : List (Nat × Nat)) (w : Nat → Q) :
    List Nat :=
  stableSort
    (fun i j => lexKeyLe (degKey (rawGraph edges) w i) (degKey (rawGraph edges) w j))
    ((List.range numNodes).filter (fun i => i ∈ gkeys (rawGraph edges)))

/-- C5 counterexample: for the single input edge `(0,1)` with equal weights both
nodes are tied on degree and weight, and the computed search order is `[1, 0]`
-- node `1` first, because the internal edge set enumerates the reversed pair
`(1,0)` first (checked against CPython 3.11 at this input) -- while the claimed
tie-break by caller input order predicts `[0, 1]`. -/
theorem visitation_order_tie_break_counterexample :
    visitation_order [(0,1)] (fun _ => (1:Int)) = [1, 0] ∧
    claimed_visitation_order 2 [(0,1)] (fun _ => (1:Int)) = [0, 1] ∧
    visitation_order [(0,1)] (fun _ => (1:Int)) ≠
      claimed_visitation_order 2 [(0,1)] (fun _ => (1:Int)) := by
  refine ⟨by decide, by decide, by decide⟩

theorem run_error_iff {quiet : Bool} {numNodes : Nat} {edges : List (Nat × Nat)} {w : Nat → Q}
    {e : SearchErr} :
    search_streamed_run quiet numNodes edges w = Except.error e ↔
      validate_input quiet numNodes
        (create_graph_max_degree_first_then_min_weight_first edges w) = Except.error e := by
  unfold search_streamed_run
  rcases h : validate_input quiet numNodes
      (create_graph_max_degree_first_then_min_weight_first edges w) with e2 | u
  · simp [h]
  · rcases u
    simp [h]

/-- C6 (amended): with the check disabled (`quiet = True`) `search_streamed`
never raises a validation error; with the check enabled, the node-count
assertion runs first, so the run fails with `DisconnectedInputError` whenever
the number of distinct nodes appearing in edges differs from the node count,
and only otherwise does the component check run, failing with
`MultiComponentError` when `find_connected_components` finds more than one
component. -/
theorem searchStreamed_validation_behavior (numNodes : Nat) (edges : List (Nat × Nat))
    (w : Nat → Q) :
    (∃ ys, search_streamed_run true numNodes edges w = Except.ok ys) ∧
    ((create_graph_max_degree_first_then_min_weight_first edges w).length ≠ numNodes →
      search_streamed_run false numNodes edges w =
        Except.error SearchErr.disconnectedInput) ∧
    ((create_graph_max_degree_first_then_min_weight_first edges w).length = numNodes →
      1 < (find_connected_components
        (create_graph_max_degree_first_then_min_weight_first edges w)).length →
      search_streamed_run false numNodes edges w =
        Except.error SearchErr.multiComponent) := by
  refine ⟨⟨_, run_ok_iff.mpr ⟨rfl, rfl⟩⟩, ?_, ?_⟩
  · intro h
    rw [run_error_iff]
    simp [validate_input, h]
  · intro h1 h2
    rw [run_error_iff]
    rcases hc : find_connected_components
        (create_graph_max_degree_first_then_min_weight_first edges w) with _ | ⟨c1, cl⟩
    · rw [hc] at h2
      simp at h2
    · rcases cl with _ | ⟨c2, rest⟩
      · rw [hc] at h2
        simp at h2
      · simp [validate_input, h1, hc]

/-- C6 counterexample: on five nodes with edges `[(0,1),(2,3)]` the built graph
has two connected components, yet the run fails with `DisconnectedInputError`
(the node-count assertion fires first), not with `MultiComponentError` as the
claim, read as stated, requires. -/
theorem validation_precedence_counterexample :
    search_streamed_run false 5 [(0,1),(2,3)] (fun _ => (1:Int)) =
      Except.error SearchErr.disconnectedInput ∧
    1 < (find_connected_components
      (create_graph_max_degree_first_then_min_weight_first [(0,1),(2,3)]
        (fun _ => (1:Int)))).length ∧
    (Except.error SearchErr.disconnectedInput : Except SearchErr (List (Triple Int))) ≠
      Except.error SearchErr.multiComponent := by
  refine ⟨by decide, by decide, by decide⟩

/-- One recursive self-call of `_search_streamed`, relating a call state
`(current_decision_index, selected_solution, current_graph, bound)` to the state
the child call is entered with.  The guards mirror the code: no call is made
once a branch is pruned, solved, or out of decisions.  The exclude child of a
node that was still in the graph starts from the bound left behind by the fully
drained include child (fuel `order.length - idx` is what the top-level fuel
leaves at depth `idx + 1`). -/
inductive SearchStep (w : Nat → Q) (order : List Nat) :
    Nat × List Nat × Graph × SState Q → Nat × List Nat × Graph × SState Q → Prop where
  | pick (idx : Nat) (sel : List Nat) (g : Graph) (st : SState Q)
      (h1 : gtCount sel.length st.minCount = false)
      (h2 : (eqCount sel.length st.minCount &&
        geWeight (sel.map w).sum st.minWeight) = false)
      (h3 : g ≠ [])
      (h4 : idx < order.length)
      (h5 : (alookup g (order.getD idx 0)).isSome = true) :
      SearchStep w order (idx, sel, g, st)
        (idx + 1, sel ++ [order.getD idx 0], delete_node g (order.getD idx 0), st)
  | excludeAfterPick (idx : Nat) (sel : List Nat) (g : Graph) (st : SState Q)
      (h1 : gtCount sel.length st.minCount = false)
      (h2 : (eqCount sel.length st.minCount &&
        geWeight (sel.map w).sum st.minWeight) = false)
      (h3 : g ≠ [])
      (h4 : idx < order.length)
      (h5 : (alookup g (order.getD idx 0)).isSome = true) :
      SearchStep w order (idx, sel, g, st)
        (idx + 1, sel, g,
          (search_streamed_aux w order (order.length - idx) (idx + 1)
            (sel ++ [order.getD idx 0]) (delete_node g (order.getD idx 0)) st).2)
  | excludeOnly (idx : Nat) (sel : List Nat) (g : Graph) (st : SState Q)
      (h1 : gtCount sel.length st.minCount = false)
      (h2 : (eqCount sel.length st.minCount &&
        geWeight (sel.map w).sum st.minWeight) = false)
      (h3 : g ≠ [])
      (h4 : idx < order.length)
      (h5 : (alookup g (order.getD idx 0)).isSome = false) :
      SearchStep w order (idx, sel, g, st) (idx + 1, sel, g, st)

/-- C9: at every recursive call reachable from the top-level invocation, the
current graph has no edge incident to a node of the candidate that leads to the
call: every selected node is neither a key of the current graph nor a member of
any of its neighbor lists. -/
theorem searchStep_no_incident_edges (w : Nat → Q) (order : List Nat) (g0 : Graph)
    (st0 : SState Q) (s : Nat × List Nat × Graph × SState Q)
    (h : Relation.ReflTransGen (SearchStep w order) (0, [], g0, st0) s) :
    ∀ n ∈ s.2.1, n ∉ gkeys s.2.2.1 ∧ ∀ e ∈ s.2.2.1, n ∉ e.2 := by
  have main : ∀ a b : Nat × List Nat × Graph × SState Q,
      Relation.ReflTransGen (SearchStep w order) a b →
      (∀ n ∈ a.2.1, n ∉ gkeys a.2.2.1 ∧ ∀ e ∈ a.2.2.1, n ∉ e.2) →
      (∀ n ∈ b.2.1, n ∉ gkeys b.2.2.1 ∧ ∀ e ∈ b.2.2.1, n ∉ e.2) := by
    intro a b hab
    induction hab with
    | refl => exact fun h => h
    | tail _ hbc ih =>
      intro ha
      have hb := ih ha
      cases hbc with
      | pick idx sel g st h1 h2 h3 h4 h5 =>
        intro n hn
        rcases List.mem_append.mp hn with hn | hn
        · obtain ⟨hk, hl⟩ := hb n hn
          constructor
          · intro hkk
            exact hk (gkeys_delete_node hkk).1
          · intro e he hmem
            obtain ⟨ns, hns, _, hfil, _⟩ := mem_delete_node.mp he
            rw [hfil] at hmem
            exact hl (e.1, ns) hns (List.mem_of_mem_filter hmem)
        · rcases List.mem_singleton.mp hn with rfl
          constructor
          · intro hkk
            exact (gkeys_delete_node hkk).2 rfl
          · intro e he
            exact (delete_node_entry_props he).2
      | excludeAfterPick idx sel g st h1 h2 h3 h4 h5 =>
        exact fun n hn => hb n hn
      | excludeOnly idx sel g st h1 h2 h3 h4 h5 =>
        exact fun n hn => hb n hn
  exact main _ _ h (fun n hn => absurd hn (List.not_mem_nil n))

/-! The message protocol of `scheduler.py`.  The worker loop and the consumption
loop of `timeout_wrapper` are embedded over explicit message lists; real time,
processes and the bounded queue are not embeddable, so each `queue.get` poll is
abstracted as an event that either delivers the next pending message or times
out. -/

/-- Python exception values crossing the worker boundary.  `timeoutException`
is the code's `TimeoutException` (the spec's `StepTimeoutError`); `other` stands
for any other exception, identified by its type name.  `workerError` is
modelled from the spec: the spec claims worker failures are re-raised wrapped in
a dedicated `WorkerError`; the code defines no such class, and this constructor
exists only so that the claim can be stated and refuted. -/
inductive PyExn where
  | timeoutException
  | workerError (inner : PyExn)
  | other (tag : String)
deriving Repr, DecidableEq

/-- The tagged messages `_generator_worker` puts on the output queue. -/
inductive WorkerMsg (α : Type) where
  | item (x : α)
  | done
  | error (e : PyExn)
  | finished
deriving Repr, DecidableEq

/-- Embedding of `_generator_worker` for an uncancelled run whose source yields
`items` and then either completes (`exn = none`) or raises (`exn = some e`):
each item is posted in order, then `done` on natural completion or `error e` on
an exception, and the `finally` block always posts `finished` last. -/
def generator_worker_msgs {α : Type} (items : List α) (exn : Option PyExn) :
    List (WorkerMsg α) :=
  match exn with
  | none => items.map WorkerMsg.item ++ [WorkerMsg.done, WorkerMsg.finished]
  | some e => items.map WorkerMsg.item ++ [WorkerMsg.error e, WorkerMsg.finished]

/-- Embedding of the consumption loop of `timeout_wrapper` over a list of poll
events (`some msg`: a message arrived within the timeout; `none`: the poll
timed out).  Returns the items forwarded downstream and the exception raised,
if any: an `item` is forwarded and the loop continues, `done` and `finished`
break the loop silently, `error e` re-raises `e` itself, a timed-out poll
breaks silently under `quiet=True` and raises `TimeoutException` under
`quiet=False`, and an exhausted event list is the loop condition turning false
(worker dead, queue empty). -/
def timeout_wrapper_run {α : Type} (quiet : Bool) :
    List (Option (WorkerMsg α)) → List α × Option PyExn
  | [] => ([], none)
  | some (WorkerMsg.item x) :: rest =>
    let r := timeout_wrapper_run quiet rest
    (x :: r.1, r.2)
  | some WorkerMsg.done :: _ => ([], none)
  | some (WorkerMsg.error e) :: _ => ([], some e)
  | some WorkerMsg.finished :: _ => ([], none)
  | none :: _ => if quiet then ([], none) else ([], some PyExn.timeoutException)

/-- C4 (amended): when the wrapped computation raises `e`, the wrapper re-raises
the original exception value `e` itself -- provenance is the exception object,
not a dedicated wrapper type -- after forwarding the items produced before the
exception, and the stream ends; natural completion ends the stream with all
items and no error. -/
theorem timeout_wrapper_reraises_original {α : Type} (quiet : Bool) (items : List α)
    (e : PyExn) :
    timeout_wrapper_run quiet ((generator_worker_msgs items (some e)).map some) =
      (items, some e) ∧
    timeout_wrapper_run quiet ((generator_worker_msgs items none).map some) =
      (items, none) := by
  constructor
  · induction items with
    | nil => rfl
    | cons x t ih =>
      simp only [generator_worker_msgs, List.map_cons, List.cons_append, List.append_eq,
        timeout_wrapper_run] at ih ⊢
      rw [ih]
  · induction items with
    | nil => rfl
    | cons x t ih =>
      simp only [generator_worker_msgs, List.map_cons, List.cons_append, List.append_eq,
        timeout_wrapper_run] at ih ⊢
      rw [ih]

/-- Whether a wrapper outcome raised a `WorkerError` wrapper value. -/
def raisedWorkerError {α : Type} (r : List α × Option PyExn) : Bool :=
  match r.2 with
  | some (PyExn.workerError _) => true
  | _ => false

/-- C4 counterexample: a worker whose source raises a `ValueError` makes the
wrapper re-raise that very exception value; the raised value is not a
`WorkerError` wrapping it -- no wrapping ever happens (the code has no
`WorkerError` class). -/
theorem timeout_wrapper_no_workerError_counterexample :
    timeout_wrapper_run false
      ((generator_worker_msgs ([] : List Nat) (some (PyExn.other "ValueError"))).map some) =
      ([], some (PyExn.other "ValueError")) ∧
    raisedWorkerError (timeout_wrapper_run false
      ((generator_worker_msgs ([] : List Nat) (some (PyExn.other "ValueError"))).map some)) =
      false := by
  exact ⟨rfl, rfl⟩

/-- C7: when a poll times out, the `raise` policy (`quiet=False`) fails with the
timeout exception (the spec's `StepTimeoutError`) and the `stopSilently` policy
(`quiet=True`) ends the stream without error; in both cases exactly the items
forwarded before the timeout are yielded -- zero if the source never yielded. -/
theorem timeout_wrapper_step_timeout (α : Type) (items : List α)
    (rest : List (Option (WorkerMsg α))) :
    timeout_wrapper_run false
      ((items.map (fun x => some (WorkerMsg.item x))) ++ none :: rest) =
      (items, some PyExn.timeoutException) ∧
    timeout_wrapper_run true
      ((items.map (fun x => some (WorkerMsg.item x))) ++ none :: rest) =
      (items, none) := by
  constructor
  · induction items with
    | nil => rfl
    | cons x t ih =>
      simp only [List.map_cons, List.cons_append, List.append_eq, timeout_wrapper_run] at ih ⊢
      rw [ih]
  · induction items with
    | nil => rfl
    | cons x t ih =>
      simp only [List.map_cons, List.cons_append, List.append_eq, timeout_wrapper_run] at ih ⊢
      rw [ih]

/-- Witness for C1 on the unit-weight triangle: the hypotheses hold and the
drained stream is the single optimal triple `([1,2], 2, 2)`. -/
theorem searchStreamed_last_triple_minimum_witness :
    (∀ n : Nat, (0:Int) ≤ (fun _ => (1:Int)) n) ∧
    search_streamed_run false 3 [(0,1),(1,2),(0,2)] (fun _ => (1:Int)) =
      Except.ok [([1,2],2,2)] ∧
    ([([1,2],2,2)] : List (Triple Int)) ≠ [] := by
  refine ⟨fun n => zero_le_one, by decide, ?_⟩
  exact (searchStreamed_last_triple_minimum false 3 [(0,1),(1,2),(0,2)] (fun _ => (1:Int))
    [([1,2],2,2)] (fun n => zero_le_one) (by decide)).1

/-- Witness for C2 on the unit-weight triangle: the yielded cover `[1,2]`
covers the edge `(0,1)`. -/
theorem searchStreamed_every_yield_is_cover_witness :
    search_streamed_run false 3 [(0,1),(1,2),(0,2)] (fun _ => (1:Int)) =
      Except.ok [([1,2],2,2)] ∧
    ((0:Nat) ∈ [1,2] ∨ (1:Nat) ∈ [1,2]) := by
  refine ⟨by decide, ?_⟩
  exact ((searchStreamed_every_yield_is_cover false 3 [(0,1),(1,2),(0,2)] (fun _ => (1:Int))
    [([1,2],2,2)] (by decide)) ([1,2],2,2) (by decide)).1 (0,1) (by decide)

/-- Witness for C3 on the unit-weight triangle. -/
theorem searchStreamed_strictly_improving_witness :
    search_streamed_run false 3 [(0,1),(1,2),(0,2)] (fun _ => (1:Int)) =
      Except.ok [([1,2],2,2)] ∧
    List.Chain' (fun a b => vLt (tripleVal b) (tripleVal a))
      ([([1,2],2,2)] : List (Triple Int)) := by
  refine ⟨by decide, ?_⟩
  exact (searchStreamed_strictly_improving false 3 [(0,1),(1,2),(0,2)] (fun _ => (1:Int))
    [([1,2],2,2)] (by decide)).1

/-- Witness for the amended C6: four nodes, two components, all nodes in edges:
the component check fires. -/
theorem searchStreamed_validation_behavior_witness :
    search_streamed_run false 4 [(0,1),(2,3)] (fun _ => (1:Int)) =
      Except.error SearchErr.multiComponent :=
  (searchStreamed_validation_behavior 4 [(0,1),(2,3)] (fun _ => (1:Int))).2.2
    (by decide) (by decide)

/-- Witness for C8 on the unit-weight triangle at the edge `(0,1)`. -/
theorem graph_builder_symmetric_total_witness :
    ((0,1) ∈ [(0,1),(1,2),(0,2)]) ∧
    (∃ ns, alookup (create_graph_max_degree_first_then_min_weight_first [(0,1),(1,2),(0,2)]
      (fun _ => (1:Int))) 0 = some ns ∧ 1 ∈ ns ∧ ns ≠ []) := by
  refine ⟨by decide, ?_⟩
  exact (graph_builder_symmetric_total [(0,1),(1,2),(0,2)] (fun _ => (1:Int))
    (0,1) (by decide)).1

/-- Witness for C9: after the one include step that selects node `1` of the
triangle, `1` is no longer a key of the shrunken graph. -/
theorem searchStep_no_incident_edges_witness :
    1 ∉ gkeys (delete_node [(1,[2,0]),(2,[1,0]),(0,[1,2])] 1) := by
  have hstep : SearchStep (fun _ => (1:Int)) [1,2,0]
      (0, [], [(1,[2,0]),(2,[1,0]),(0,[1,2])], ⟨none, none⟩)
      (1, [1], delete_node [(1,[2,0]),(2,[1,0]),(0,[1,2])] 1, ⟨none, none⟩) :=
    SearchStep.pick 0 [] [(1,[2,0]),(2,[1,0]),(0,[1,2])] ⟨none, none⟩
      (by decide) (by decide) (by decide) (by decide) (by decide)
  exact (searchStep_no_incident_edges (fun _ => (1:Int)) [1,2,0]
    [(1,[2,0]),(2,[1,0]),(0,[1,2])] ⟨none, none⟩ _ (Relation.ReflTransGen.single hstep)
    1 (by decide)).1

/-- Witness for C10: deleting node `0` from the symmetric triangle table. -/
theorem delete_node_contract_witness :
    (∀ p ∈ gpairs [(0,[1,2]),(1,[0,2]),(2,[0,1])],
      (p.2, p.1) ∈ gpairs [(0,[1,2]),(1,[0,2]),(2,[0,1])]) ∧
    0 ∉ gkeys (delete_node [(0,[1,2]),(1,[0,2]),(2,[0,1])] 0) := by
  refine ⟨by decide, ?_⟩
  exact (delete_node_contract [(0,[1,2]),(1,[0,2]),(2,[0,1])] 0 (by decide) (by decide)).1
